import Mathlib

/-!
Verification of the rushstack version-bump propagation and publish-ordering
engine (`rush publish`) and of `ExtractorConfig.loadFile`.

The command-line driver `PublishAction.onExecute`, its helpers
(`_execCommand`, `_deleteChangeFiles`, `_gitAddTags`, the npm-publish loop)
and `ExtractorConfig.loadFile` are embedded from the TypeScript source.
The aggregation/ordering library functions `findChangeRequests`,
`sortChangeRequests` and `updatePackages` are imported by `PublishAction`
from a module whose source is not available; those are modelled from the
specification (sections 4.2-4.5), as marked in their doc comments.
-/

deriving instance DecidableEq for Except

namespace Rush

/-- The `ChangeType` enum of rush-lib: a totally ordered severity scale
`none < dependency < patch < minor < major`. -/
inductive ChangeType
  | none
  | dependency
  | patch
  | minor
  | major
deriving DecidableEq, Repr

/-- Numeric rank realizing the total order on `ChangeType`
(matching the numeric values of the TypeScript enum). -/
def ChangeType.rank : ChangeType → Nat
  | .none => 0
  | .dependency => 1
  | .patch => 2
  | .minor => 3
  | .major => 4

/-- `a ≤ b` on change severities. -/
def ctLe (a b : ChangeType) : Prop := a.rank ≤ b.rank

/-- `a < b` on change severities (the TypeScript comparison
`change.changeType > ChangeType.dependency` is `ctLt .dependency _`). -/
def ctLt (a b : ChangeType) : Bool := a.rank < b.rank

instance (a b : ChangeType) : Decidable (ctLe a b) := by
  unfold ctLe; infer_instance

/-- Maximum of two severities under the `ChangeType` order. -/
def ctMax (a b : ChangeType) : ChangeType := if a.rank ≤ b.rank then b else a

instance : RightCommutative ctMax :=
  ⟨fun b a1 a2 => by cases b <;> cases a1 <;> cases a2 <;> rfl⟩

/-- A parsed change request: one record of a change file. -/
structure ChangeRequest where
  packageName : String
  changeType : ChangeType
deriving DecidableEq, Repr

/-- A package of the monorepo snapshot, with its production and development
dependency edges (by package name). -/
structure PackageNode where
  name : String
  prodDependencies : List String
  devDependencies : List String
deriving DecidableEq, Repr

/-- The dependency-graph snapshot: the list of packages. -/
abbrev Graph : Type := List PackageNode

/-- Modelled from the spec: Bump Aggregator step 1 (merge conflicts) —
the merged explicit severity of package `p` is the maximum, under the
`ChangeType` order, of the severities of all requests naming `p`
(`ChangeType.none` when no request names `p`). -/
def explicitSeverity (reqs : List ChangeRequest) (p : String) : ChangeType :=
  ((reqs.filter (fun r => r.packageName = p)).map (fun r => r.changeType)).foldl
    ctMax ChangeType.none

/-- Modelled from the spec: a package has an explicitly requested bump when
its merged severity is `patch`, `minor` or `major` (not `dependency`, not
`none`) — Bump Aggregator step 2 (seed set). -/
def isExplicit (reqs : List ChangeRequest) (p : String) : Bool :=
  ChangeType.patch.rank ≤ (explicitSeverity reqs p).rank

/-- A bump plan, as an association list from package name to final change
type (the `IChangeInfoHash` of the source, with versions abstracted away). -/
abbrev BumpPlan : Type := List (String × ChangeType)

/-- Whether package `p` already has an entry in the plan. -/
def inPlan (plan : BumpPlan) (p : String) : Bool :=
  plan.any (fun e => e.fst = p)

/-- Modelled from the spec: the seed plan holds every package with an
explicitly requested bump, at its merged explicit severity. -/
def seedPlan (g : Graph) (reqs : List ChangeRequest) : BumpPlan :=
  (g.filter (fun n => isExplicit reqs n.name)).map
    (fun n => (n.name, explicitSeverity reqs n.name))

/-- Modelled from the spec: one propagation wave — every package not yet in
the plan that consumes some planned package as a *production* dependency is
assigned the `dependency` change type. Development edges are never
consulted. -/
def stepAdds (g : Graph) (plan : BumpPlan) : BumpPlan :=
  (g.filter (fun n =>
    !inPlan plan n.name && n.prodDependencies.any (fun d => inPlan plan d))).map
    (fun n => (n.name, ChangeType.dependency))

/-- Modelled from the spec: Bump Aggregator step 3 — iterate propagation
waves to a fixed point; the fuel bounds the number of waves (each
non-trivial wave adds at least one package, so `g.length` waves reach the
fixed point). -/
def propagateN : Nat → Graph → BumpPlan → BumpPlan
  | 0, _, plan => plan
  | fuel + 1, g, plan =>
    let adds := stepAdds g plan
    if adds.isEmpty then plan else propagateN fuel g (plan ++ adds)

/-- Modelled from the spec: `findChangeRequests` — the Bump Aggregator.
Merges the change requests, seeds the plan with explicitly changed
packages, and propagates `dependency` bumps across production
reverse-edges to a fixed point. -/
def findChangeRequests (g : Graph) (reqs : List ChangeRequest) : BumpPlan :=
  propagateN (g.length + 1) g (seedPlan g reqs)

/-- The affected set: the package names holding an entry of the plan. -/
def affectedNames (g : Graph) (reqs : List ChangeRequest) : List String :=
  (findChangeRequests g reqs).map Prod.fst

/-- Whether package `a` declares a production dependency on package `b`
in the graph snapshot (looked up by name). -/
def prodDependsB (g : Graph) (a b : String) : Bool :=
  match g.find? (fun n => n.name = a) with
  | some n => n.prodDependencies.contains b
  | Option.none => false

/-- Modelled from the spec: the production dependencies of `p` restricted
to the still-unprocessed affected packages `remaining` — `p`'s residual
in-degree is the length of this list. -/
def prodDepsIn (g : Graph) (remaining : List String) (p : String) : List String :=
  match g.find? (fun n => n.name = p) with
  | some n => n.prodDependencies.filter (fun d => remaining.contains d)
  | Option.none => []

/-- Modelled from the spec: the currently removable nodes of Kahn's
algorithm — the unprocessed affected packages of zero residual
in-degree. -/
def removable (g : Graph) (remaining : List String) : List String :=
  remaining.filter (fun p => (prodDepsIn g remaining p).isEmpty)

/-- Lexicographic order on lists of characters, by code point. -/
def charListLt : List Char → List Char → Bool
  | [], [] => false
  | [], _ :: _ => true
  | _ :: _, [] => false
  | a :: as, b :: bs =>
    if a.toNat < b.toNat then true
    else if b.toNat < a.toNat then false
    else charListLt as bs

/-- Lexicographic order on strings (the platform-independent comparison the
tie-break uses). -/
def strLt (a b : String) : Bool := charListLt a.data b.data

/-- The lexicographically smallest string of a list, `Option.none` on the
empty list. -/
def minString : List String → Option String
  | [] => Option.none
  | x :: xs => some (xs.foldl (fun a b => if strLt b a then b else a) x)

/-- Modelled from the spec: the fatal errors of the Publish Sequencer. -/
inductive SeqError
  | cyclic (members : List String)
deriving DecidableEq, Repr

/-- Modelled from the spec: the loop of Kahn's algorithm. Each round picks
the lexicographically smallest removable package, appends it to the order
and removes it; if no package is removable while some remain, the affected
subgraph contains a cycle and the run fails with `CyclicDependency`,
naming every still-unresolved package. -/
def kahnGo : Nat → Graph → List String → List String → Except SeqError (List String)
  | 0, _, remaining, acc =>
    if remaining.isEmpty then Except.ok acc.reverse
    else Except.error (SeqError.cyclic remaining)
  | fuel + 1, g, remaining, acc =>
    if remaining.isEmpty then Except.ok acc.reverse
    else
      match minString (removable g remaining) with
      | Option.none => Except.error (SeqError.cyclic remaining)
      | some p => kahnGo fuel g (remaining.erase p) (p :: acc)

/-- Modelled from the spec: `sortChangeRequests` — the Publish Sequencer.
Topologically orders the affected packages so that every affected
production dependency precedes its dependents, with the lexicographic
tie-break; detects cycles. -/
def sortChangeRequests (g : Graph) (affected : List String) :
    Except SeqError (List String) :=
  kahnGo affected.length g affected []

/-- The side-effecting steps of `PublishAction.onExecute`, in source
order (lines 96-130 of PublishAction.ts). -/
inductive PublishStep
  | gitCheckoutTemp
  | updatePackagesStep
  | deleteChangeFilesStep
  | gitAddChanges
  | gitCommit
  | gitPushTemp
  | npmPublishLoop
  | gitAddTags
  | gitPushTags
  | gitCheckoutTarget
  | gitPull
  | gitMerge
  | gitPushTarget
  | gitDeleteBranch
deriving DecidableEq, Repr

/-- The sequence of steps `onExecute` performs: when `orderedChanges` is
nonempty it runs the whole pipeline in this order; otherwise it runs
nothing. Embeds the body of `PublishAction.onExecute`. -/
def onExecuteSteps (hasChanges : Bool) : List PublishStep :=
  if hasChanges then
    [PublishStep.gitCheckoutTemp,
     PublishStep.updatePackagesStep,
     PublishStep.deleteChangeFilesStep,
     PublishStep.gitAddChanges,
     PublishStep.gitCommit,
     PublishStep.gitPushTemp,
     PublishStep.npmPublishLoop,
     PublishStep.gitAddTags,
     PublishStep.gitPushTags,
     PublishStep.gitCheckoutTarget,
     PublishStep.gitPull,
     PublishStep.gitMerge,
     PublishStep.gitPushTarget,
     PublishStep.gitDeleteBranch]
  else []

/-- The npm-publish loop of `onExecute` (lines 114-118): a change is
published only when `change.changeType > ChangeType.dependency`. -/
def publishedChanges (orderedChanges : List ChangeRequest) : List ChangeRequest :=
  orderedChanges.filter (fun c => ctLt ChangeType.dependency c.changeType)

/-- The tag loop of `_gitAddTags` (lines 229-242): a tag is created only
when `change.changeType > ChangeType.dependency`. -/
def taggedChanges (orderedChanges : List ChangeRequest) : List ChangeRequest :=
  orderedChanges.filter (fun c => ctLt ChangeType.dependency c.changeType)

/-- Outcome of `_execCommand`: the command line it reports to the console,
and the list of commands it actually runs. -/
structure ExecOutcome where
  reportedCmd : String × List String
  executedCmds : List (String × List String)
deriving DecidableEq, Repr

/-- Embeds `PublishAction._execCommand` (lines 145-176): the command is
always logged (labelled EXECUTING or DRYRUN), and `Utilities.executeCommand`
runs it only when `shouldExecute` is true. -/
def execCommand (shouldExecute : Bool) (command : String) (args : List String) :
    ExecOutcome :=
  { reportedCmd := (command, args)
    executedCmds := if shouldExecute then [(command, args)] else [] }

/-- The folder `_deleteChangeFiles` scans (line 198):
`path.join(process.cwd(), 'changes')`. -/
def deleteChangesFolder (cwd : String) : String := cwd ++ "/changes"

/-- The folder `onExecute` reads change requests from (line 91):
`path.join(this._rushConfig.commonFolder, 'changes')`. -/
def readChangesFolder (commonFolder : String) : String := commonFolder ++ "/changes"

/-- Whether `needle` occurs at the start of `hay`. -/
def charListStarts : List Char → List Char → Bool
  | [], _ => true
  | _ :: _, [] => false
  | a :: as, b :: bs => a == b && charListStarts as bs

/-- Whether `needle` occurs somewhere inside `hay`. -/
def charListOccurs (needle : List Char) : List Char → Bool
  | [] => charListStarts needle []
  | b :: bs => charListStarts needle (b :: bs) || charListOccurs needle bs

/-- `filename.indexOf(".json") >= 0`: the name contains `.json` as a
substring. -/
def hasJsonInName (filename : String) : Bool :=
  charListOccurs ".json".data filename.data

/-- Outcome of `_deleteChangeFiles`: the files it reports and the files it
deletes. -/
structure DeleteOutcome where
  reported : List String
  deleted : List String
deriving DecidableEq, Repr

/-- Embeds `PublishAction._deleteChangeFiles` (lines 197-223).
`listing` is the result of `fsx.readdirSync` on the `changes` folder under
the current working directory: `Option.none` when the read throws (the
exception is swallowed and `changeFiles` stays empty). Every listed file
whose name contains `.json` is reported; it is deleted exactly when the
`--target-branch` parameter is set. -/
def deleteChangeFiles (targetBranchSet : Bool) (listing : Option (List String)) :
    DeleteOutcome :=
  let changeFiles := (listing.getD []).filter hasJsonInName
  { reported := changeFiles
    deleted := if targetBranchSet then changeFiles else [] }

/-- Modelled from the spec: `updatePackages` — the Package Mutator, whose
body is not in the available source. Given the intended manifest edits and
the `--apply` flag, it reports the edits always and writes them only when
the flag is set. -/
def updatePackages (applyFlag : Bool) (edits : List (String × String)) :
    List (String × String) × List (String × String) :=
  (edits, if applyFlag then edits else [])

/-- The propagation invariant: every plan entry belongs to an explicitly
changed package, or carries the `dependency` change type and is justified
by a production edge into the plan. -/
def planInv (g : Graph) (reqs : List ChangeRequest) (plan : BumpPlan) : Prop :=
  ∀ e ∈ plan, isExplicit reqs e.fst = true ∨
    (e.snd = ChangeType.dependency ∧
      ∃ n ∈ g, n.name = e.fst ∧
        ∃ d ∈ n.prodDependencies, inPlan plan d = true)

end Rush

namespace Extractor

/-- A loading failure of `ExtractorConfig.loadFile`. -/
inductive LoadError
  | cycle (p : String)
  | notFound (p : String)
  | fuelOut
deriving DecidableEq, Repr

/-- A config file on disk, reduced to what the `extends` loop consumes:
its already-resolved `extends` target, if any. -/
abbrev ConfigFS : Type := List (String × Option String)

/-- Embeds the `do/while` loop of `ExtractorConfig.loadFile`
(ExtractorConfig.ts lines 298-367), with the JSON payloads abstracted: the
result is the chain of processed config file paths, outermost first. Each
round checks the visited set (raising the cycle error naming the revisited
file), records the current path as visited, loads the file, and follows its
`extends` target while one is present. The fuel counts loop rounds;
`LoadError.fuelOut` marks exhaustion. -/
def loadFileGo : Nat → ConfigFS → List String → String → Except LoadError (List String)
  | 0, _, _, _ => Except.error LoadError.fuelOut
  | fuel + 1, fs, visitedPaths, currentConfigFilePath =>
    if visitedPaths.contains currentConfigFilePath then
      Except.error (LoadError.cycle currentConfigFilePath)
    else
      match fs.find? (fun e => e.fst = currentConfigFilePath) with
      | Option.none => Except.error (LoadError.notFound currentConfigFilePath)
      | some e =>
        match e.snd with
        | Option.none => Except.ok [currentConfigFilePath]
        | some extendsTarget =>
          match loadFileGo fuel fs (currentConfigFilePath :: visitedPaths) extendsTarget with
          | Except.ok chain => Except.ok (currentConfigFilePath :: chain)
          | Except.error err => Except.error err

/-- `ExtractorConfig.loadFile`: runs the `extends` loop with fuel one more
than the number of config files on disk (shown sufficient below). -/
def loadFile (fs : ConfigFS) (jsonFilePath : String) : Except LoadError (List String) :=
  loadFileGo (fs.length + 1) fs [] jsonFilePath

end Extractor

section Scratch
open Rush

example :
    explicitSeverity
      [⟨"c", ChangeType.patch⟩, ⟨"c", ChangeType.major⟩] "c" = ChangeType.major := by
  decide

example :
    findChangeRequests
      [⟨"a", ["b"], []⟩, ⟨"b", [], []⟩, ⟨"d", [], ["b"]⟩]
      [⟨"b", ChangeType.patch⟩]
    = [("b", ChangeType.patch), ("a", ChangeType.dependency)] := by
  decide

example :
    sortChangeRequests
      [⟨"a", ["b"], []⟩, ⟨"b", [], []⟩, ⟨"c", [], []⟩]
      ["a", "b", "c"]
    = Except.ok ["b", "a", "c"] := by
  decide

example :
    sortChangeRequests
      [⟨"f", ["g"], []⟩, ⟨"g", ["f"], []⟩]
      ["f", "g"]
    = Except.error (SeqError.cyclic ["f", "g"]) := by
  decide

example :
    Extractor.loadFile [("a", some "b"), ("b", Option.none)] "a"
    = Except.ok ["a", "b"] := by decide

example :
    Extractor.loadFile [("a", some "b"), ("b", some "a")] "a"
    = Except.error (Extractor.LoadError.cycle "a") := by decide

example : hasJsonInName "x.json" = true := by decide

example : hasJsonInName "x.jsonc.bak" = true := by decide

example : hasJsonInName "readme.md" = false := by decide

end Scratch

namespace ListFacts

/-- Filtering with a logically weaker predicate keeps at most as many
elements. -/
theorem length_filter_le_of_imp {α : Type} (p q : α → Bool) (l : List α)
    (himp : ∀ a, q a = true → p a = true) :
    (l.filter q).length ≤ (l.filter p).length := by
  induction l with
  | nil => simp
  | cons b t ih =>
    by_cases hq : q b = true
    · have hp : p b = true := himp b hq
      simp [List.filter_cons, hq, hp, Nat.succ_le_succ ih]
    · have hq2 : q b = false := by revert hq; cases q b <;> simp
      by_cases hp : p b = true
      · simp [List.filter_cons, hq2, hp]
        exact Nat.le_trans ih (Nat.le_succ _)
      · have hp2 : p b = false := by revert hp; cases p b <;> simp
        simpa [List.filter_cons, hq2, hp2] using ih

/-- Filtering with a logically weaker predicate that moreover loses a
definite member keeps strictly fewer elements. -/
theorem length_filter_lt_of_imp {α : Type} (p q : α → Bool) (l : List α)
    (himp : ∀ a, q a = true → p a = true) (a : α) (ha : a ∈ l)
    (hpa : p a = true) (hqa : q a = false) :
    (l.filter q).length < (l.filter p).length := by
  induction l with
  | nil => cases ha
  | cons b t ih =>
    rcases List.mem_cons.1 ha with h | h
    · subst h
      simp only [List.filter_cons, hpa, hqa]
      simp only [if_true, if_false]
      exact Nat.lt_succ_of_le (length_filter_le_of_imp p q t himp)
    · by_cases hq : q b = true
      · have hp : p b = true := himp b hq
        simpa [List.filter_cons, hq, hp] using Nat.succ_lt_succ (ih h)
      · have hq2 : q b = false := by revert hq; cases q b <;> simp
        by_cases hp : p b = true
        · simp only [List.filter_cons, hq2, hp]
          simp only [if_true, if_false]
          exact Nat.lt_succ_of_lt (ih h)
        · have hp2 : p b = false := by revert hp; cases p b <;> simp
          simpa [List.filter_cons, hq2, hp2] using ih h

end ListFacts

namespace Rush

theorem ctLe_ctMax_left (a b : ChangeType) : ctLe a (ctMax a b) := by
  cases a <;> cases b <;> decide

theorem ctLe_ctMax_right (a b : ChangeType) : ctLe b (ctMax a b) := by
  cases a <;> cases b <;> decide

theorem ctLe_trans {a b c : ChangeType} (h1 : ctLe a b) (h2 : ctLe b c) :
    ctLe a c := Nat.le_trans h1 h2

theorem ctMax_eq_or (a b : ChangeType) : ctMax a b = a ∨ ctMax a b = b := by
  cases a <;> cases b <;> decide

/-- Each element of the fold is bounded by the fold result. -/
theorem ctLe_foldl_ctMax (l : List ChangeType) :
    ∀ init, ctLe init (l.foldl ctMax init) ∧
      ∀ x ∈ l, ctLe x (l.foldl ctMax init) := by
  induction l with
  | nil =>
    intro init
    exact ⟨Nat.le_refl _, by intro x hx; cases hx⟩
  | cons b t ih =>
    intro init
    refine ⟨?_, ?_⟩
    · exact ctLe_trans (ctLe_ctMax_left init b) (ih (ctMax init b)).1
    · intro x hx
      rcases List.mem_cons.1 hx with h | h
      · subst h
        exact ctLe_trans (ctLe_ctMax_right init x) (ih (ctMax init x)).1
      · exact (ih (ctMax init b)).2 x h

/-- The fold result is the initial value or one of the elements. -/
theorem foldl_ctMax_mem (l : List ChangeType) :
    ∀ init, l.foldl ctMax init = init ∨ l.foldl ctMax init ∈ l := by
  induction l with
  | nil => intro init; exact Or.inl rfl
  | cons b t ih =>
    intro init
    rcases ih (ctMax init b) with h | h
    · rcases ctMax_eq_or init b with h2 | h2
      · exact Or.inl (by rw [List.foldl_cons, h, h2])
      · exact Or.inr (by rw [List.foldl_cons, h, h2]; exact List.mem_cons_self _ _)
    · exact Or.inr (List.mem_cons_of_mem _ h)

/-- C6: for every package named by several change requests, the merged
explicit severity is the maximum of the requested severities under the
`ChangeType` total order (it bounds every request and is attained by one
of them unless it is `none`), and the merge result is independent of the
order in which the change files are read. -/
theorem mergeConflicts_max_and_commutative
    (reqs reqs2 : List ChangeRequest) (p : String) (hperm : reqs.Perm reqs2) :
    (∀ r ∈ reqs, r.packageName = p → ctLe r.changeType (explicitSeverity reqs p)) ∧
    (explicitSeverity reqs p = ChangeType.none ∨
      ∃ r ∈ reqs, r.packageName = p ∧ r.changeType = explicitSeverity reqs p) ∧
    explicitSeverity reqs p = explicitSeverity reqs2 p := by
  refine ⟨?_, ?_, ?_⟩
  · intro r hr hname
    apply (ctLe_foldl_ctMax _ ChangeType.none).2
    exact List.mem_map_of_mem _ (List.mem_filter.2 ⟨hr, by simp [hname]⟩)
  · rcases foldl_ctMax_mem
        ((reqs.filter (fun r => r.packageName = p)).map (fun r => r.changeType))
        ChangeType.none with h | h
    · exact Or.inl h
    · rcases List.mem_map.1 h with ⟨r, hr, hty⟩
      rcases List.mem_filter.1 hr with ⟨hrm, hrp⟩
      exact Or.inr ⟨r, hrm, by simpa using hrp, hty⟩
  · unfold explicitSeverity
    exact ((hperm.filter _).map _).foldl_eq ChangeType.none

/-- Witness for C6: two change files both target `c`, one `patch` one
`major`, read in either order: the merged severity is bounded by the
maximum, attained, and identical for both read orders. -/
theorem mergeConflicts_max_and_commutative_witness :
    (∀ r ∈ [ChangeRequest.mk "c" ChangeType.patch, ChangeRequest.mk "c" ChangeType.major],
      r.packageName = "c" →
        ctLe r.changeType (explicitSeverity
          [ChangeRequest.mk "c" ChangeType.patch, ChangeRequest.mk "c" ChangeType.major] "c")) ∧
    (explicitSeverity
        [ChangeRequest.mk "c" ChangeType.patch, ChangeRequest.mk "c" ChangeType.major] "c"
        = ChangeType.none ∨
      ∃ r ∈ [ChangeRequest.mk "c" ChangeType.patch, ChangeRequest.mk "c" ChangeType.major],
        r.packageName = "c" ∧ r.changeType = explicitSeverity
          [ChangeRequest.mk "c" ChangeType.patch, ChangeRequest.mk "c" ChangeType.major] "c") ∧
    explicitSeverity
        [ChangeRequest.mk "c" ChangeType.patch, ChangeRequest.mk "c" ChangeType.major] "c"
      = explicitSeverity
        [ChangeRequest.mk "c" ChangeType.major, ChangeRequest.mk "c" ChangeType.patch] "c" :=
  mergeConflicts_max_and_commutative
    [ChangeRequest.mk "c" ChangeType.patch, ChangeRequest.mk "c" ChangeType.major]
    [ChangeRequest.mk "c" ChangeType.major, ChangeRequest.mk "c" ChangeType.patch]
    "c" (by decide)

end Rush

namespace Rush

/-- `inPlan` only grows when the plan is extended on the right. -/
theorem inPlan_append_left {plan : BumpPlan} {p : String}
    (h : inPlan plan p = true) (adds : BumpPlan) :
    inPlan (plan ++ adds) p = true := by
  rcases List.any_eq_true.1 h with ⟨e, he, hp⟩
  exact List.any_eq_true.2 ⟨e, List.mem_append_left _ he, hp⟩

/-- Membership of an entry makes its key `inPlan`. -/
theorem inPlan_of_mem {plan : BumpPlan} {e : String × ChangeType}
    (h : e ∈ plan) : inPlan plan e.fst = true :=
  List.any_eq_true.2 ⟨e, h, by simp⟩

/-- A key that is `inPlan` has an entry. -/
theorem exists_entry_of_inPlan {plan : BumpPlan} {p : String}
    (h : inPlan plan p = true) : ∃ t, (p, t) ∈ plan := by
  rcases List.any_eq_true.1 h with ⟨e, he, hp⟩
  have : e.fst = p := by simpa using hp
  exact ⟨e.snd, by rw [← this]; exact he⟩

/-- `propagateN` only appends to the plan. -/
theorem propagateN_extends (g : Graph) :
    ∀ fuel plan, ∃ ext, propagateN fuel g plan = plan ++ ext := by
  intro fuel
  induction fuel with
  | zero => intro plan; exact ⟨[], by simp [propagateN]⟩
  | succ n ih =>
    intro plan
    by_cases h : (stepAdds g plan).isEmpty = true
    · exact ⟨[], by simp [propagateN, h]⟩
    · rcases ih (plan ++ stepAdds g plan) with ⟨ext, hext⟩
      refine ⟨stepAdds g plan ++ ext, ?_⟩
      simp only [propagateN, h, if_false]
      rw [hext, List.append_assoc]
      simp

/-- Each wave of additions satisfies the filter condition it was built
from. -/
theorem mem_stepAdds {g : Graph} {plan : BumpPlan} {e : String × ChangeType}
    (h : e ∈ stepAdds g plan) :
    e.snd = ChangeType.dependency ∧
      ∃ n ∈ g, n.name = e.fst ∧ inPlan plan n.name = false ∧
        ∃ d ∈ n.prodDependencies, inPlan plan d = true := by
  rcases List.mem_map.1 h with ⟨n, hn, hne⟩
  rcases List.mem_filter.1 hn with ⟨hg, hcond⟩
  have hcond2 := hcond
  simp only [Bool.and_eq_true, Bool.not_eq_true'] at hcond2
  rcases hcond2 with ⟨hnot, hany⟩
  rcases List.any_eq_true.1 hany with ⟨d, hd, hdp⟩
  subst hne
  exact ⟨rfl, n, hg, rfl, hnot, d, hd, hdp⟩

/-- The seed plan satisfies the propagation invariant. -/
theorem planInv_seed (g : Graph) (reqs : List ChangeRequest) :
    planInv g reqs (seedPlan g reqs) := by
  intro e he
  rcases List.mem_map.1 he with ⟨n, hn, hne⟩
  rcases List.mem_filter.1 hn with ⟨_, hexp⟩
  subst hne
  exact Or.inl hexp

/-- One propagation wave preserves the invariant. -/
theorem planInv_step (g : Graph) (reqs : List ChangeRequest)
    {plan : BumpPlan} (h : planInv g reqs plan) :
    planInv g reqs (plan ++ stepAdds g plan) := by
  intro e he
  rcases List.mem_append.1 he with hmem | hmem
  · rcases h e hmem with hexp | ⟨hdep, n, hg, hname, d, hd, hin⟩
    · exact Or.inl hexp
    · exact Or.inr ⟨hdep, n, hg, hname, d, hd, inPlan_append_left hin _⟩
  · rcases mem_stepAdds hmem with ⟨hdep, n, hg, hname, _, d, hd, hin⟩
    exact Or.inr ⟨hdep, n, hg, hname, d, hd, inPlan_append_left hin _⟩

/-- The invariant holds after any number of propagation waves. -/
theorem planInv_propagateN (g : Graph) (reqs : List ChangeRequest) :
    ∀ fuel plan, planInv g reqs plan → planInv g reqs (propagateN fuel g plan) := by
  intro fuel
  induction fuel with
  | zero => intro plan h; simpa [propagateN] using h
  | succ n ih =>
    intro plan h
    by_cases hempty : (stepAdds g plan).isEmpty = true
    · simpa [propagateN, hempty] using h
    · simp only [propagateN, hempty, if_false]
      exact ih _ (planInv_step g reqs h)

/-- A nonempty wave strictly shrinks the set of packages outside the
plan. -/
theorem stepAdds_measure (g : Graph) (plan : BumpPlan)
    (h : (stepAdds g plan).isEmpty = false) :
    (g.filter (fun n => !inPlan (plan ++ stepAdds g plan) n.name)).length <
      (g.filter (fun n => !inPlan plan n.name)).length := by
  have hne : stepAdds g plan ≠ [] := by
    intro hx; rw [hx] at h; simp at h
  rcases List.exists_mem_of_ne_nil _ hne with ⟨e, he⟩
  rcases mem_stepAdds he with ⟨_, n, hg, hname, hnot, _⟩
  have hinnew : inPlan (plan ++ stepAdds g plan) n.name = true :=
    List.any_eq_true.2 ⟨e, List.mem_append_right _ he, by simp [hname]⟩
  refine ListFacts.length_filter_lt_of_imp
    (fun n => !inPlan plan n.name)
    (fun n => !inPlan (plan ++ stepAdds g plan) n.name)
    g ?_ n hg (by simp [hnot]) (by simp [hinnew])
  intro a ha
  simp only [Bool.not_eq_true'] at ha ⊢
  by_cases hin : inPlan plan a.name = true
  · rw [inPlan_append_left hin] at ha; cases ha
  · simpa using hin

/-- With fuel exceeding the number of packages outside the plan,
`propagateN` reaches a fixed point of `stepAdds`. -/
theorem propagateN_fixpoint (g : Graph) :
    ∀ fuel plan, (g.filter (fun n => !inPlan plan n.name)).length < fuel →
      stepAdds g (propagateN fuel g plan) = [] := by
  intro fuel
  induction fuel with
  | zero => intro plan h; cases h
  | succ m ih =>
    intro plan h
    by_cases hempty : (stepAdds g plan).isEmpty = true
    · simp only [propagateN, hempty, if_true]
      exact List.isEmpty_iff.1 hempty
    · simp only [propagateN, hempty, if_false]
      apply ih
      have hlt := stepAdds_measure g plan (by revert hempty; cases (stepAdds g plan).isEmpty <;> simp)
      exact Nat.lt_of_lt_of_le hlt (Nat.lt_succ_iff.1 h)

/-- The final plan is a fixed point of propagation. -/
theorem findChangeRequests_fixpoint (g : Graph) (reqs : List ChangeRequest) :
    stepAdds g (findChangeRequests g reqs) = [] := by
  apply propagateN_fixpoint
  exact Nat.lt_succ_of_le (List.length_filter_le _ _)

/-- The final plan satisfies the propagation invariant. -/
theorem findChangeRequests_inv (g : Graph) (reqs : List ChangeRequest) :
    planInv g reqs (findChangeRequests g reqs) :=
  planInv_propagateN g reqs _ _ (planInv_seed g reqs)

end Rush

namespace Rush

/-- C2: the affected set is closed under production reverse-edges and only
those. First conjunct: a package `A` of the graph without an explicit
request that production-depends on an affected package is itself in the
plan with final change type `dependency`. Second conjunct: every plan
entry is either explicitly requested or a `dependency` bump justified by a
production edge into the plan — in particular a package reaching the
affected set only through development edges is never added by them. -/
theorem propagationClosure (g : Graph) (reqs : List ChangeRequest)
    (A : PackageNode) (hA : A ∈ g)
    (hnoexp : isExplicit reqs A.name = false)
    (B : String) (hB : B ∈ A.prodDependencies)
    (hBaff : inPlan (findChangeRequests g reqs) B = true) :
    (A.name, ChangeType.dependency) ∈ findChangeRequests g reqs ∧
    ∀ p t, (p, t) ∈ findChangeRequests g reqs →
      isExplicit reqs p = true ∨
        (t = ChangeType.dependency ∧ ∃ n ∈ g, n.name = p ∧
          ∃ d ∈ n.prodDependencies, inPlan (findChangeRequests g reqs) d = true) := by
  constructor
  · have hinA : inPlan (findChangeRequests g reqs) A.name = true := by
      by_contra hfalse
      have hnotin : inPlan (findChangeRequests g reqs) A.name = false := by
        revert hfalse; cases inPlan (findChangeRequests g reqs) A.name <;> simp
      have hmem : (A.name, ChangeType.dependency) ∈ stepAdds g (findChangeRequests g reqs) := by
        apply List.mem_map_of_mem
        apply List.mem_filter.2
        refine ⟨hA, ?_⟩
        simp only [Bool.and_eq_true, Bool.not_eq_true']
        exact ⟨hnotin, List.any_eq_true.2 ⟨B, hB, hBaff⟩⟩
      rw [findChangeRequests_fixpoint] at hmem
      cases hmem
    rcases exists_entry_of_inPlan hinA with ⟨t, hentry⟩
    rcases findChangeRequests_inv g reqs _ hentry with hexp | ⟨hdep, _⟩
    · rw [hnoexp] at hexp; cases hexp
    · exact hdep ▸ hentry
  · intro p t hpt
    rcases findChangeRequests_inv g reqs _ hpt with hexp | ⟨hdep, n, hn, hname, d, hd, hdin⟩
    · exact Or.inl hexp
    · exact Or.inr ⟨hdep, n, hn, hname, d, hd, hdin⟩

/-- Witness for C2: in the graph where `a` production-depends on `b` and
`d` dev-depends on `b`, a `patch` request on `b` propagates a `dependency`
bump to `a`, and every plan entry is explicit or production-edge
justified. -/
theorem propagationClosure_witness :
    ("a", ChangeType.dependency) ∈
      findChangeRequests
        [PackageNode.mk "a" ["b"] [], PackageNode.mk "b" [] [], PackageNode.mk "d" [] ["b"]]
        [ChangeRequest.mk "b" ChangeType.patch] ∧
    ∀ p t, (p, t) ∈
        findChangeRequests
          [PackageNode.mk "a" ["b"] [], PackageNode.mk "b" [] [], PackageNode.mk "d" [] ["b"]]
          [ChangeRequest.mk "b" ChangeType.patch] →
      isExplicit [ChangeRequest.mk "b" ChangeType.patch] p = true ∨
        (t = ChangeType.dependency ∧
          ∃ n ∈ [PackageNode.mk "a" ["b"] [], PackageNode.mk "b" [] [], PackageNode.mk "d" [] ["b"]],
            n.name = p ∧ ∃ d ∈ n.prodDependencies,
              inPlan (findChangeRequests
                [PackageNode.mk "a" ["b"] [], PackageNode.mk "b" [] [], PackageNode.mk "d" [] ["b"]]
                [ChangeRequest.mk "b" ChangeType.patch]) d = true) :=
  propagationClosure
    [PackageNode.mk "a" ["b"] [], PackageNode.mk "b" [] [], PackageNode.mk "d" [] ["b"]]
    [ChangeRequest.mk "b" ChangeType.patch]
    (PackageNode.mk "a" ["b"] []) (by decide) (by decide)
    "b" (by decide) (by decide)

end Rush

namespace Rush

/-- `charListLt` is irreflexive. -/
theorem charListLt_irrefl : ∀ as : List Char, charListLt as as = false := by
  intro as
  induction as with
  | nil => rfl
  | cons a t ih => simp [charListLt, ih]

/-- `charListLt` is transitive. -/
theorem charListLt_trans :
    ∀ as bs cs : List Char, charListLt as bs = true → charListLt bs cs = true →
      charListLt as cs = true := by
  intro as
  induction as with
  | nil =>
    intro bs cs h1 h2
    cases bs with
    | nil => exact h2
    | cons b bt =>
      cases cs with
      | nil => cases h2
      | cons c ct => rfl
  | cons a at' ih =>
    intro bs cs h1 h2
    cases bs with
    | nil => cases h1
    | cons b bt =>
      cases cs with
      | nil => cases h2
      | cons c ct =>
        simp only [charListLt] at h1 h2 ⊢
        by_cases hab : a.toNat < b.toNat
        · by_cases hbc : b.toNat < c.toNat
          · simp [Nat.lt_trans hab hbc]
          · simp only [hbc, if_false] at h2
            by_cases hcb : c.toNat < b.toNat
            · simp [hcb] at h2
            · have : b.toNat = c.toNat := Nat.le_antisymm (Nat.le_of_not_lt hcb) (Nat.le_of_not_lt hbc)
              simp [this ▸ hab]
        · simp only [hab, if_false] at h1
          by_cases hba : b.toNat < a.toNat
          · simp [hba] at h1
          · have hab2 : a.toNat = b.toNat := Nat.le_antisymm (Nat.le_of_not_lt hba) (Nat.le_of_not_lt hab)
            simp only [hba, if_false] at h1
            by_cases hbc : b.toNat < c.toNat
            · simp [hab2 ▸ hbc]
            · simp only [hbc, if_false] at h2
              by_cases hcb : c.toNat < b.toNat
              · simp [hcb] at h2
              · have hbc2 : b.toNat = c.toNat := Nat.le_antisymm (Nat.le_of_not_lt hcb) (Nat.le_of_not_lt hbc)
                simp only [hcb, if_false] at h2
                have hac : ¬ a.toNat < c.toNat := by omega
                have hca : ¬ c.toNat < a.toNat := by omega
                simp only [hac, hca, if_false]
                exact ih bt ct h1 h2

/-- Two characters with equal code points are equal. -/
theorem charEqOfToNatEq {a b : Char} (h : a.toNat = b.toNat) : a = b := by
  have hval : a.val = b.val := UInt32.ext h
  cases a; cases b
  simp only at hval
  subst hval
  rfl

/-- `charListLt` is connected: two lists that are not ordered either way
are equal. -/
theorem charListLt_connex :
    ∀ as bs : List Char, charListLt as bs = false → charListLt bs as = true ∨ as = bs := by
  intro as
  induction as with
  | nil =>
    intro bs h
    cases bs with
    | nil => exact Or.inr rfl
    | cons b bt => cases h
  | cons a at' ih =>
    intro bs h
    cases bs with
    | nil => exact Or.inl rfl
    | cons b bt =>
      simp only [charListLt] at h ⊢
      by_cases hab : a.toNat < b.toNat
      · simp [hab] at h
      · simp only [hab, if_false] at h
        by_cases hba : b.toNat < a.toNat
        · simp [hba]
        · simp only [hba, if_false] at h ⊢
          have hx : ¬ a.toNat < b.toNat := hab
          simp only [hab, if_false]
          rcases ih bt h with h2 | h2
          · exact Or.inl h2
          · exact Or.inr (by rw [charEqOfToNatEq (Nat.le_antisymm (Nat.le_of_not_lt hba) (Nat.le_of_not_lt hab)), h2])

/-- `strLt` is irreflexive. -/
theorem strLt_irrefl (a : String) : strLt a a = false := charListLt_irrefl a.data

/-- `strLt` is transitive. -/
theorem strLt_trans {a b c : String} (h1 : strLt a b = true) (h2 : strLt b c = true) :
    strLt a c = true := charListLt_trans a.data b.data c.data h1 h2

/-- `strLt` is connected. -/
theorem strLt_connex {a b : String} (h : strLt a b = false) :
    strLt b a = true ∨ a = b := by
  rcases charListLt_connex a.data b.data h with h2 | h2
  · exact Or.inl h2
  · cases a; cases b
    simp only at h2
    exact Or.inr (by rw [h2])

end Rush

namespace Rush

/-- The running minimum of the fold inside `minString`: the result is the
start value or a list member, and no inspected string is smaller. -/
theorem foldlMin_spec (xs : List String) :
    ∀ x : String,
      (xs.foldl (fun a b => if strLt b a then b else a) x = x ∨
        xs.foldl (fun a b => if strLt b a then b else a) x ∈ xs) ∧
      strLt x (xs.foldl (fun a b => if strLt b a then b else a) x) = false ∧
      ∀ y ∈ xs, strLt y (xs.foldl (fun a b => if strLt b a then b else a) x) = false := by
  induction xs with
  | nil =>
    intro x
    exact ⟨Or.inl rfl, strLt_irrefl x, by intro y hy; cases hy⟩
  | cons b bs ih =>
    intro x
    cases hbx : strLt b x with
    | true =>
      rcases ih b with ⟨hmem, hacc, hall⟩
      have hfold : (b :: bs).foldl (fun a b => if strLt b a then b else a) x
          = bs.foldl (fun a b => if strLt b a then b else a) b := by
        simp [List.foldl_cons, hbx]
      rw [hfold]
      refine ⟨?_, ?_, ?_⟩
      · rcases hmem with h | h
        · exact Or.inr (by rw [h]; exact List.mem_cons_self b bs)
        · exact Or.inr (List.mem_cons_of_mem _ h)
      · by_contra hx
        have hx2 : strLt x (bs.foldl (fun a b => if strLt b a then b else a) b) = true := by
          revert hx; cases strLt x (bs.foldl (fun a b => if strLt b a then b else a) b) <;> simp
        have := strLt_trans hbx hx2
        rw [hacc] at this; cases this
      · intro y hy
        rcases List.mem_cons.1 hy with h | h
        · exact h ▸ hacc
        · exact hall y h
    | false =>
      rcases ih x with ⟨hmem, hacc, hall⟩
      have hfold : (b :: bs).foldl (fun a b => if strLt b a then b else a) x
          = bs.foldl (fun a b => if strLt b a then b else a) x := by
        simp [List.foldl_cons, hbx]
      rw [hfold]
      refine ⟨?_, ?_, ?_⟩
      · rcases hmem with h | h
        · exact Or.inl h
        · exact Or.inr (List.mem_cons_of_mem _ h)
      · exact hacc
      · intro y hy
        rcases List.mem_cons.1 hy with h | h
        · subst h
          rcases strLt_connex hbx with hxb | hxb
          · by_contra hbr
            have hbr2 : strLt y (bs.foldl (fun a b => if strLt b a then b else a) x) = true := by
              revert hbr
              cases strLt y (bs.foldl (fun a b => if strLt b a then b else a) x) <;> simp
            have := strLt_trans hxb hbr2
            rw [hacc] at this; cases this
          · exact hxb ▸ hacc
        · exact hall y h

/-- `minString` returns a member no other member is smaller than. -/
theorem minString_spec {l : List String} {m : String} (h : minString l = some m) :
    m ∈ l ∧ ∀ x ∈ l, strLt x m = false := by
  cases l with
  | nil => cases h
  | cons x xs =>
    have hm : xs.foldl (fun a b => if strLt b a then b else a) x = m := by
      simpa [minString] using h
    rcases foldlMin_spec xs x with ⟨hmem, hacc, hall⟩
    rw [hm] at hmem hacc hall
    refine ⟨?_, ?_⟩
    · rcases hmem with h2 | h2
      · exact h2 ▸ List.mem_cons_self x xs
      · exact List.mem_cons_of_mem _ h2
    · intro y hy
      rcases List.mem_cons.1 hy with h2 | h2
      · exact h2 ▸ hacc
      · exact hall y h2

/-- `minString` of a nonempty list never fails. -/
theorem minString_isSome {l : List String} (h : l ≠ []) :
    ∃ m, minString l = some m := by
  cases l with
  | nil => cases h rfl
  | cons x xs => exact ⟨_, rfl⟩

end Rush

namespace Rush

/-- Unpacking membership in the restricted dependency list. -/
theorem of_mem_prodDepsIn {g : Graph} {remaining : List String} {p d : String}
    (h : d ∈ prodDepsIn g remaining p) :
    prodDependsB g p d = true ∧ d ∈ remaining := by
  unfold prodDepsIn at h
  unfold prodDependsB
  cases hfind : g.find? (fun n => n.name = p) with
  | none => rw [hfind] at h; cases h
  | some n =>
    rw [hfind] at h
    rcases List.mem_filter.1 h with ⟨hd, hcont⟩
    exact ⟨List.elem_eq_true_of_mem hd, List.mem_of_elem_eq_true hcont⟩

/-- A package with an empty restricted dependency list has no production
edge into `remaining`. -/
theorem prodDepsIn_nil_no_edge {g : Graph} {remaining : List String} {p b : String}
    (hdeps : prodDepsIn g remaining p = []) (hedge : prodDependsB g p b = true)
    (hb : b ∈ remaining) : False := by
  unfold prodDepsIn at hdeps
  unfold prodDependsB at hedge
  cases hfind : g.find? (fun n => n.name = p) with
  | none => rw [hfind] at hedge; cases hedge
  | some n =>
    rw [hfind] at hdeps hedge
    have hdeps2 : n.prodDependencies.filter (fun d => remaining.contains d) = [] := hdeps
    have hbdeps : b ∈ n.prodDependencies := List.mem_of_elem_eq_true hedge
    have : b ∈ n.prodDependencies.filter (fun d => remaining.contains d) :=
      List.mem_filter.2 ⟨hbdeps, List.elem_eq_true_of_mem hb⟩
    rw [hdeps2] at this
    cases this

/-- Transporting the accumulator invariant through `List.reverse`. -/
theorem acc_inv_reverse {g : Graph} {affected acc : List String}
    (hinv : ∀ l1 a l2, acc = l1 ++ a :: l2 → ∀ b, prodDependsB g a b = true →
      b ∈ affected → b ∈ l2) :
    ∀ l1 a l2, acc.reverse = l1 ++ a :: l2 → ∀ b, prodDependsB g a b = true →
      b ∈ affected → b ∈ l1 := by
  intro l1 a l2 hsplit b hedge hbaff
  have hacc : acc = l2.reverse ++ a :: l1.reverse := by
    have h2 := congrArg List.reverse hsplit
    simpa [List.reverse_append] using h2
  exact List.mem_reverse.1 (hinv _ _ _ hacc b hedge hbaff)

/-- The loop invariant of Kahn's algorithm on the success path: starting
from any state whose processed prefix respects dependencies, a successful
run yields a permutation of `affected` in which every node's affected
production dependencies appear strictly earlier. -/
theorem kahn_ok_inv (g : Graph) (affected : List String) :
    ∀ fuel remaining acc order,
      remaining.length ≤ fuel →
      (acc.reverse ++ remaining).Perm affected →
      (∀ l1 a l2, acc = l1 ++ a :: l2 → ∀ b, prodDependsB g a b = true →
        b ∈ affected → b ∈ l2) →
      kahnGo fuel g remaining acc = Except.ok order →
      order.Perm affected ∧
      (∀ l1 a l2, order = l1 ++ a :: l2 → ∀ b, prodDependsB g a b = true →
        b ∈ affected → b ∈ l1) := by
  intro fuel
  induction fuel with
  | zero =>
    intro remaining acc order hlen hperm hinv hrun
    have hrem : remaining = [] := List.length_eq_zero.1 (Nat.le_zero.1 hlen)
    subst hrem
    simp only [kahnGo, List.isEmpty_nil, if_true] at hrun
    have horder : order = acc.reverse := by
      injection hrun with h; exact h.symm
    subst horder
    exact ⟨by simpa using hperm, acc_inv_reverse hinv⟩
  | succ fuel ih =>
    intro remaining acc order hlen hperm hinv hrun
    by_cases hrem : remaining.isEmpty = true
    · have hrem2 : remaining = [] := List.isEmpty_iff.1 hrem
      subst hrem2
      simp only [kahnGo, List.isEmpty_nil, if_true] at hrun
      have horder : order = acc.reverse := by
        injection hrun with h; exact h.symm
      subst horder
      exact ⟨by simpa using hperm, acc_inv_reverse hinv⟩
    · have hrem2 : remaining.isEmpty = false := by
        revert hrem; cases remaining.isEmpty <;> simp
      simp only [kahnGo, hrem2, Bool.false_eq_true, if_false] at hrun
      cases hmin : minString (removable g remaining) with
      | none => rw [hmin] at hrun; cases hrun
      | some p =>
        rw [hmin] at hrun
        rcases minString_spec hmin with ⟨hprem, _⟩
        rcases List.mem_filter.1 hprem with ⟨hpmem, hpdeps⟩
        have hpdeps2 : prodDepsIn g remaining p = [] := List.isEmpty_iff.1 hpdeps
        have hlen2 : (remaining.erase p).length ≤ fuel := by
          rw [List.length_erase_of_mem hpmem]
          have : remaining.length ≠ 0 := by
            intro h0
            rw [List.length_eq_zero.1 h0] at hrem2
            cases hrem2
          omega
        have hperm2 : ((p :: acc).reverse ++ remaining.erase p).Perm affected := by
          have hstep : ((p :: acc).reverse ++ remaining.erase p).Perm
              (acc.reverse ++ remaining) := by
            rw [List.reverse_cons, List.append_assoc]
            exact List.Perm.append_left acc.reverse
              (by simpa using (List.perm_cons_erase hpmem).symm)
          exact hstep.trans hperm
        have hinv2 : ∀ l1 a l2, p :: acc = l1 ++ a :: l2 →
            ∀ b, prodDependsB g a b = true → b ∈ affected → b ∈ l2 := by
          intro l1 a l2 hsplit b hedge hbaff
          cases l1 with
          | nil =>
            injection hsplit with h1 h2
            subst h1; subst h2
            have hbmem : b ∈ acc.reverse ++ remaining :=
              hperm.symm.subset hbaff
            rcases List.mem_append.1 hbmem with h | h
            · exact List.mem_reverse.1 h
            · exact absurd h (fun hc => prodDepsIn_nil_no_edge hpdeps2 hedge hc)
          | cons q l1t =>
            injection hsplit with h1 h2
            subst h1
            exact hinv l1t a l2 h2 b hedge hbaff
        exact ih (remaining.erase p) (p :: acc) order hlen2 hperm2 hinv2 hrun

end Rush

namespace Rush

/-- C1: when the Publish Sequencer succeeds on a duplicate-free affected
set, the resulting PublishOrder is a permutation of the affected set, and
for every production edge `A → B` with both endpoints in the order, `B`
appears strictly before `A`. -/
theorem publishOrder_perm_and_sorted (g : Graph) (affected order : List String)
    (hnd : affected.Nodup)
    (hok : sortChangeRequests g affected = Except.ok order) :
    order.Perm affected ∧
    ∀ a b, a ∈ order → b ∈ order → prodDependsB g a b = true →
      order.indexOf b < order.indexOf a := by
  have hmain := kahn_ok_inv g affected affected.length affected [] order
    (Nat.le_refl _) (by simp) (by intro l1 a l2 h; cases l1 <;> cases h) hok
  rcases hmain with ⟨hperm, hsorted⟩
  refine ⟨hperm, ?_⟩
  intro a b ha hb hedge
  rcases List.append_of_mem ha with ⟨l1, l2, hsplit⟩
  have hbaff : b ∈ affected := hperm.subset hb
  have hbl1 : b ∈ l1 := hsorted l1 a l2 hsplit b hedge hbaff
  have hnodup : order.Nodup := (hperm.nodup_iff).2 hnd
  rw [hsplit] at hnodup ⊢
  have hal1 : a ∉ l1 := by
    intro hmem
    exact (List.disjoint_of_nodup_append hnodup) hmem (List.mem_cons_self a l2)
  rw [List.indexOf_append_of_mem hbl1, List.indexOf_append_of_not_mem hal1,
    List.indexOf_cons_self]
  have : List.indexOf b l1 < l1.length := List.indexOf_lt_length.2 hbl1
  omega

/-- Witness for C1: `a` production-depends on `b`; the sequencer orders
`["a","b"]` as `["b","a"]`, a permutation in which `b` precedes `a`. -/
theorem publishOrder_perm_and_sorted_witness :
    (["b", "a"] : List String).Perm ["a", "b"] ∧
    ∀ x y, x ∈ (["b", "a"] : List String) → y ∈ (["b", "a"] : List String) →
      prodDependsB [PackageNode.mk "a" ["b"] [], PackageNode.mk "b" [] []] x y = true →
      (["b", "a"] : List String).indexOf y < (["b", "a"] : List String).indexOf x :=
  publishOrder_perm_and_sorted
    [PackageNode.mk "a" ["b"] [], PackageNode.mk "b" [] []]
    ["a", "b"] ["b", "a"] (by decide) (by decide)

end Rush

namespace Rush

/-- The loop invariant of Kahn's algorithm on the failure path: a
`CyclicDependency` error names a nonempty subset of the affected set in
which every member still has a production dependency on another member. -/
theorem kahn_err_inv (g : Graph) (affected : List String) :
    ∀ fuel remaining acc members,
      remaining.length ≤ fuel →
      (acc.reverse ++ remaining).Perm affected →
      kahnGo fuel g remaining acc = Except.error (SeqError.cyclic members) →
      members ≠ [] ∧ (∀ p ∈ members, p ∈ affected) ∧
        (∀ p ∈ members, ∃ d, d ∈ members ∧ prodDependsB g p d = true) := by
  intro fuel
  induction fuel with
  | zero =>
    intro remaining acc members hlen hperm hrun
    have hrem : remaining = [] := List.length_eq_zero.1 (Nat.le_zero.1 hlen)
    subst hrem
    simp only [kahnGo, List.isEmpty_nil, if_true] at hrun
    cases hrun
  | succ fuel ih =>
    intro remaining acc members hlen hperm hrun
    by_cases hrem : remaining.isEmpty = true
    · rw [List.isEmpty_iff.1 hrem] at hrun
      simp only [kahnGo, List.isEmpty_nil, if_true] at hrun
      cases hrun
    · have hrem2 : remaining.isEmpty = false := by
        revert hrem; cases remaining.isEmpty <;> simp
      have hremne : remaining ≠ [] := by
        intro h0; rw [h0] at hrem2; cases hrem2
      simp only [kahnGo, hrem2, Bool.false_eq_true, if_false] at hrun
      cases hmin : minString (removable g remaining) with
      | none =>
        rw [hmin] at hrun
        have hmem : members = remaining := by
          injection hrun with h
          injection h with h2
          exact h2.symm
        subst hmem
        have hremovable : removable g members = [] := by
          cases hr : removable g members with
          | nil => rfl
          | cons x xs => rw [hr] at hmin; cases hmin
        refine ⟨hremne, ?_, ?_⟩
        · intro p hp
          exact hperm.subset (List.mem_append_right _ hp)
        · intro p hp
          have hnotrem : (prodDepsIn g members p).isEmpty ≠ true := by
            intro hempty
            have : p ∈ removable g members := List.mem_filter.2 ⟨hp, hempty⟩
            rw [hremovable] at this
            cases this
          have hne : prodDepsIn g members p ≠ [] := by
            intro h0; exact hnotrem (by rw [h0]; rfl)
          rcases List.exists_mem_of_ne_nil _ hne with ⟨d, hd⟩
          rcases of_mem_prodDepsIn hd with ⟨hedge, hdrem⟩
          exact ⟨d, hdrem, hedge⟩
      | some p =>
        rw [hmin] at hrun
        rcases minString_spec hmin with ⟨hprem, _⟩
        rcases List.mem_filter.1 hprem with ⟨hpmem, _⟩
        have hlen2 : (remaining.erase p).length ≤ fuel := by
          rw [List.length_erase_of_mem hpmem]
          have : remaining.length ≠ 0 := by
            intro h0; exact hremne (List.length_eq_zero.1 h0)
          omega
        have hperm2 : ((p :: acc).reverse ++ remaining.erase p).Perm affected := by
          have hstep : ((p :: acc).reverse ++ remaining.erase p).Perm
              (acc.reverse ++ remaining) := by
            rw [List.reverse_cons, List.append_assoc]
            exact List.Perm.append_left acc.reverse
              (by simpa using (List.perm_cons_erase hpmem).symm)
          exact hstep.trans hperm
        exact ih (remaining.erase p) (p :: acc) members hlen2 hperm2 hrun

/-- C7: when ordering the affected subgraph leaves nodes of positive
in-degree, the sequencer fails with a `CyclicDependency` error whose member
list is nonempty, drawn from the affected set, and entirely stuck (every
named package production-depends on another named package); no
PublishOrder is produced. -/
theorem cyclicDependency_fatal (g : Graph) (affected members : List String)
    (herr : sortChangeRequests g affected = Except.error (SeqError.cyclic members)) :
    members ≠ [] ∧ (∀ p ∈ members, p ∈ affected) ∧
    (∀ p ∈ members, ∃ d, d ∈ members ∧ prodDependsB g p d = true) ∧
    ∀ order, sortChangeRequests g affected ≠ Except.ok order := by
  have h := kahn_err_inv g affected affected.length affected [] members
    (Nat.le_refl _) (by simp) herr
  exact ⟨h.1, h.2.1, h.2.2, by intro order hok; rw [herr] at hok; cases hok⟩

/-- Witness for C7: `f` and `g` production-depend on each other and both
are affected; the sequencer fails with `CyclicDependency(["f","g"])`, a
nonempty fully stuck subset of the affected set, and yields no order. -/
theorem cyclicDependency_fatal_witness :
    (["f", "g"] : List String) ≠ [] ∧
    (∀ p ∈ (["f", "g"] : List String), p ∈ (["f", "g"] : List String)) ∧
    (∀ p ∈ (["f", "g"] : List String), ∃ d, d ∈ (["f", "g"] : List String) ∧
      prodDependsB [PackageNode.mk "f" ["g"] [], PackageNode.mk "g" ["f"] []] p d = true) ∧
    ∀ order, sortChangeRequests
      [PackageNode.mk "f" ["g"] [], PackageNode.mk "g" ["f"] []]
      ["f", "g"] ≠ Except.ok order :=
  cyclicDependency_fatal
    [PackageNode.mk "f" ["g"] [], PackageNode.mk "g" ["f"] []]
    ["f", "g"] ["f", "g"] (by decide)

end Rush

namespace Rush

/-- C5: the engine is a deterministic function of its inputs — identical
change requests and an identical graph snapshot give identical plans and
publish orders — and within the sequencer every round chooses the
lexicographically smallest removable package. -/
theorem engine_deterministic_lex_tiebreak :
    (∀ (g1 g2 : Graph) (reqs1 reqs2 : List ChangeRequest),
      g1 = g2 → reqs1 = reqs2 →
      findChangeRequests g1 reqs1 = findChangeRequests g2 reqs2 ∧
      sortChangeRequests g1 (affectedNames g1 reqs1)
        = sortChangeRequests g2 (affectedNames g2 reqs2)) ∧
    (∀ (g : Graph) (remaining : List String) (m : String),
      minString (removable g remaining) = some m →
      m ∈ removable g remaining ∧
      ∀ x ∈ removable g remaining, x ≠ m → strLt m x = true) := by
  constructor
  · intro g1 g2 reqs1 reqs2 hg hr
    subst hg; subst hr
    exact ⟨rfl, rfl⟩
  · intro g remaining m hmin
    rcases minString_spec hmin with ⟨hmem, hall⟩
    refine ⟨hmem, ?_⟩
    intro x hx hne
    rcases strLt_connex (hall x hx) with h | h
    · exact h
    · cases hne h

/-- Witness for C5: two identical runs agree, and with `a` and `b` both
removable the round picks `a`, the lexicographically smaller name. -/
theorem engine_deterministic_lex_tiebreak_witness :
    (findChangeRequests [PackageNode.mk "a" [] [], PackageNode.mk "b" [] []]
        [ChangeRequest.mk "a" ChangeType.patch]
      = findChangeRequests [PackageNode.mk "a" [] [], PackageNode.mk "b" [] []]
        [ChangeRequest.mk "a" ChangeType.patch] ∧
      sortChangeRequests [PackageNode.mk "a" [] [], PackageNode.mk "b" [] []]
        (affectedNames [PackageNode.mk "a" [] [], PackageNode.mk "b" [] []]
          [ChangeRequest.mk "a" ChangeType.patch])
      = sortChangeRequests [PackageNode.mk "a" [] [], PackageNode.mk "b" [] []]
        (affectedNames [PackageNode.mk "a" [] [], PackageNode.mk "b" [] []]
          [ChangeRequest.mk "a" ChangeType.patch])) ∧
    ("a" ∈ removable [PackageNode.mk "a" [] [], PackageNode.mk "b" [] []] ["b", "a"] ∧
      ∀ x ∈ removable [PackageNode.mk "a" [] [], PackageNode.mk "b" [] []] ["b", "a"],
        x ≠ "a" → strLt "a" x = true) :=
  ⟨engine_deterministic_lex_tiebreak.1
      [PackageNode.mk "a" [] [], PackageNode.mk "b" [] []]
      [PackageNode.mk "a" [] [], PackageNode.mk "b" [] []]
      [ChangeRequest.mk "a" ChangeType.patch]
      [ChangeRequest.mk "a" ChangeType.patch] rfl rfl,
    engine_deterministic_lex_tiebreak.2
      [PackageNode.mk "a" [] [], PackageNode.mk "b" [] []]
      ["b", "a"] "a" (by decide)⟩

end Rush

namespace Rush

/-- Counterexample to C3: in the pipeline run when changes exist, the
change-file deletion step occurs strictly before the git commit step, and
when the target-branch flag is set (the only case in which files are
deleted at all) deletion really removes the files — so a crash between the
two leaves the change files already deleted before any commit completed. -/
theorem deleteBeforeCommit_counterexample :
    (onExecuteSteps true).indexOf PublishStep.deleteChangeFilesStep <
      (onExecuteSteps true).indexOf PublishStep.gitCommit ∧
    (deleteChangeFiles true (some ["x.json"])).deleted = ["x.json"] := by
  constructor
  · decide
  · rfl

/-- C3 as amended: deletion happens only when the target-branch flag is
set, and it is sequenced after the manifest updates but before `git add`
and `git commit`, so the deletions are staged and committed together with
the manifest edits rather than after the commit; with no changes, nothing
runs. -/
theorem deleteChangeFiles_sequencing (listing : Option (List String)) :
    (deleteChangeFiles false listing).deleted = [] ∧
    (onExecuteSteps true).indexOf PublishStep.updatePackagesStep <
      (onExecuteSteps true).indexOf PublishStep.deleteChangeFilesStep ∧
    (onExecuteSteps true).indexOf PublishStep.deleteChangeFilesStep <
      (onExecuteSteps true).indexOf PublishStep.gitAddChanges ∧
    (onExecuteSteps true).indexOf PublishStep.gitAddChanges <
      (onExecuteSteps true).indexOf PublishStep.gitCommit ∧
    onExecuteSteps false = [] := by
  refine ⟨rfl, by decide, by decide, by decide, rfl⟩

/-- Counterexample to C4: a package whose final change type is
`dependency` is part of the ordered changes (its change type is not
`none`) yet the npm-publish loop and the tag loop both skip it, because
they require `changeType > ChangeType.dependency`. -/
theorem dependencyNotPublished_counterexample :
    ChangeRequest.mk "a" ChangeType.dependency ∈
      [ChangeRequest.mk "a" ChangeType.dependency] ∧
    (ChangeRequest.mk "a" ChangeType.dependency).changeType ≠ ChangeType.none ∧
    publishedChanges [ChangeRequest.mk "a" ChangeType.dependency] = [] ∧
    taggedChanges [ChangeRequest.mk "a" ChangeType.dependency] = [] := by
  exact ⟨List.mem_cons_self _ _, by decide, rfl, rfl⟩

/-- C4 as amended: a change is npm-published exactly when it appears in
the ordered changes with a final change type strictly greater than
`dependency` (patch, minor or major); the tag loop uses the same filter,
so `dependency`-level packages are re-versioned but neither published nor
tagged. -/
theorem publishSequence_filter (orderedChanges : List ChangeRequest)
    (c : ChangeRequest) :
    (c ∈ publishedChanges orderedChanges ↔
      c ∈ orderedChanges ∧ ctLt ChangeType.dependency c.changeType = true) ∧
    taggedChanges orderedChanges = publishedChanges orderedChanges := by
  exact ⟨List.mem_filter, rfl⟩

/-- C8: every mutating operation is gated on its controlling flag — with
the flag false, `_execCommand` runs nothing, `_deleteChangeFiles` deletes
nothing and `updatePackages` writes nothing — and the operations reported
in dry-run mode are exactly those applied when the flag is true. -/
theorem dryRun_frame (command : String) (args : List String)
    (listing : Option (List String)) (edits : List (String × String)) :
    (execCommand false command args).executedCmds = [] ∧
    (execCommand false command args).reportedCmd
      = (execCommand true command args).reportedCmd ∧
    (execCommand true command args).executedCmds
      = [(execCommand false command args).reportedCmd] ∧
    (deleteChangeFiles false listing).deleted = [] ∧
    (deleteChangeFiles false listing).reported
      = (deleteChangeFiles true listing).reported ∧
    (deleteChangeFiles true listing).deleted
      = (deleteChangeFiles false listing).reported ∧
    (updatePackages false edits).2 = [] ∧
    (updatePackages false edits).1 = (updatePackages true edits).1 ∧
    (updatePackages true edits).2 = (updatePackages false edits).1 := by
  exact ⟨rfl, rfl, rfl, rfl, rfl, rfl, rfl, rfl, rfl⟩

end Rush

namespace Rush

/-- C9: with the target-branch flag set, `_deleteChangeFiles` deletes
every listed file whose name contains `.json`, irrespective of the plan;
the folder it scans is `process.cwd() ++ "/changes"` while the change
requests were read from `commonFolder ++ "/changes"`, which differ
whenever the working directory is not the common folder; and when the
directory read fails the error is swallowed and nothing is deleted or
reported. -/
theorem deleteChangeFiles_scope (fs : List String) (tb : Bool)
    (cwd commonFolder : String) (hne : cwd ≠ commonFolder) :
    (deleteChangeFiles true (some fs)).deleted = fs.filter hasJsonInName ∧
    (deleteChangeFiles tb Option.none).deleted = [] ∧
    (deleteChangeFiles tb Option.none).reported = [] ∧
    deleteChangesFolder cwd ≠ readChangesFolder commonFolder := by
  refine ⟨rfl, ?_, rfl, ?_⟩
  · cases tb <;> rfl
  · intro heq
    apply hne
    have hdata : cwd.data ++ "/changes".data = commonFolder.data ++ "/changes".data := by
      have := congrArg String.data heq
      simpa [deleteChangesFolder, readChangesFolder] using this
    have : cwd.data = commonFolder.data := List.append_cancel_right hdata
    cases cwd; cases commonFolder
    simp only at this
    rw [this]

/-- Witness for C9: a listing with one `.json` file and one other file
under differing folders — only the `.json` file is deleted, a failed read
deletes nothing, and the scanned folder differs from the read folder. -/
theorem deleteChangeFiles_scope_witness :
    (deleteChangeFiles true (some ["a.json", "b.txt"])).deleted = ["a.json"] ∧
    (deleteChangeFiles true Option.none).deleted = [] ∧
    (deleteChangeFiles true Option.none).reported = [] ∧
    deleteChangesFolder "/repo/apps/web" ≠ readChangesFolder "/repo/common" := by
  have h := deleteChangeFiles_scope ["a.json", "b.txt"] true
    "/repo/apps/web" "/repo/common" (by decide)
  refine ⟨?_, h.2.1, h.2.2.1, h.2.2.2⟩
  rw [h.1]
  rfl

end Rush

namespace Extractor

/-- Key termination bound: each loop round visits a config file that was
on disk but not yet visited, so the rounds are bounded by the number of
unvisited files on disk. -/
theorem loadFileGo_no_fuelOut (fs : ConfigFS) :
    ∀ fuel visitedPaths cur,
      (fs.filter (fun e => !visitedPaths.contains e.fst)).length < fuel →
      loadFileGo fuel fs visitedPaths cur ≠ Except.error LoadError.fuelOut := by
  intro fuel
  induction fuel with
  | zero => intro visitedPaths cur h; cases h
  | succ fuel ih =>
    intro visitedPaths cur h
    by_cases hvis : visitedPaths.contains cur = true
    · simp only [loadFileGo, hvis, if_true]
      intro hx; cases hx
    · have hvis2 : visitedPaths.contains cur = false := by
        revert hvis; cases visitedPaths.contains cur <;> simp
      simp only [loadFileGo, hvis2, Bool.false_eq_true, if_false]
      cases hfind : fs.find? (fun e => e.fst = cur) with
      | none => intro hx; simp at hx
      | some e =>
        cases hext : e.snd with
        | none => intro hx; simp [hext] at hx
        | some extendsTarget =>
          have hefs : e ∈ fs := List.mem_of_find?_eq_some hfind
          have hecur : e.fst = cur := by
            have := List.find?_some hfind
            simpa using this
          have hmeasure :
              (fs.filter (fun x => !(cur :: visitedPaths).contains x.fst)).length <
                (fs.filter (fun x => !visitedPaths.contains x.fst)).length := by
            refine ListFacts.length_filter_lt_of_imp
              (fun x => !visitedPaths.contains x.fst)
              (fun x => !(cur :: visitedPaths).contains x.fst)
              fs ?_ e hefs ?_ ?_
            · intro x hx
              simp only [Bool.not_eq_true', List.contains_cons] at hx ⊢
              revert hx
              cases visitedPaths.contains x.fst <;> simp
            · simp only [Bool.not_eq_true', hecur]
              exact hvis2
            · simp [hecur, List.contains_cons]
          have hrec := ih (cur :: visitedPaths) extendsTarget
            (Nat.lt_of_lt_of_le hmeasure (Nat.lt_succ_iff.1 h))
          cases hrun : loadFileGo fuel fs (cur :: visitedPaths) extendsTarget with
          | ok chain => intro hx; simp [hext, hrun] at hx
          | error err =>
            have herr : err ≠ LoadError.fuelOut := by
              intro hbad; rw [hbad] at hrun; exact hrec hrun
            intro hx
            simp only [hext, hrun] at hx
            injection hx with hx2
            exact herr hx2

/-- C10: `ExtractorConfig.loadFile` terminates on every input — the
`extends` loop, whose fuel exceeds the number of config files on disk,
never exhausts it — and whenever the chain reaches a file already recorded
in the visited set, it raises the cycle error naming that file instead of
looping. -/
theorem loadFile_terminates_detects_cycles (fs : ConfigFS) (jsonFilePath : String) :
    loadFile fs jsonFilePath ≠ Except.error LoadError.fuelOut ∧
    ∀ fuel visitedPaths cur, visitedPaths.contains cur = true →
      loadFileGo (fuel + 1) fs visitedPaths cur
        = Except.error (LoadError.cycle cur) := by
  constructor
  · apply loadFileGo_no_fuelOut
    exact Nat.lt_succ_of_le (List.length_filter_le _ _)
  · intro fuel visitedPaths cur hvis
    simp only [loadFileGo, hvis, if_true]

/-- Witness for C10: on a two-file filesystem whose `extends` fields form
a cycle, `loadFile` does not run out of fuel, and a round that revisits
`"a"` raises the cycle error naming `"a"`. -/
theorem loadFile_terminates_detects_cycles_witness :
    loadFile [("a", some "b"), ("b", some "a")] "a"
      ≠ Except.error LoadError.fuelOut ∧
    loadFileGo 1 [("a", some "b"), ("b", some "a")] ["b", "a"] "a"
      = Except.error (LoadError.cycle "a") :=
  ⟨(loadFile_terminates_detects_cycles [("a", some "b"), ("b", some "a")] "a").1,
    (loadFile_terminates_detects_cycles [("a", some "b"), ("b", some "a")] "a").2
      0 ["b", "a"] "a" (by decide)⟩

end Extractor
